import Mathlib

set_option maxRecDepth 40000

/-!
# Verification of the GitHub-Lang-Detector data pipeline

A shallow embedding of the data-acquisition and aggregation pipeline of the
`fetchData` function in `src/App.jsx` (the richer app variant; the variant in
the unnamed source file is a strict subset with the same paginator, classifier
and histogram logic).  Pure JS computations become Lean functions on `List`;
the mutable `langMap` object becomes an association list in insertion order
(JS objects enumerate non-integer string keys in insertion order);
`Array.prototype.sort`, which is required to be stable, is modelled by a
stable insertion sort; machine numbers are `Nat`/`Int`/`Rat` (star and fork
counts are small non-negative integers, far below any overflow boundary);
network responses are an explicit `Resp` value and the repository source is a
function from page numbers to responses; `throw`/`catch` control flow becomes
`Except`.
-/

/-- A repository record as consumed by the pipeline: exactly the fields the
`fetchData` code reads.  `language`, `stargazers_count`, `forks_count` and
`description` are nullable/possibly absent in the API payload, hence
`Option`. -/
structure Repo where
  name : String
  language : Option String
  stargazers_count : Option Nat
  forks_count : Option Nat
  description : Option String
  html_url : String
deriving DecidableEq

/-- The user profile object.  The pipeline itself only passes it through
unmodified (all other fields are presentational), so one identifying field
suffices for the embedding. -/
structure UserProfile where
  login : String
deriving DecidableEq

/-- One histogram entry `{ name, value }` as built from `langMap`. -/
structure LangCount where
  name : String
  value : Nat
deriving DecidableEq

/-- One entry of the top-5 list, as produced by the `.map` over the sorted,
truncated repository list.  `stars`/`forks` are the raw (possibly absent)
counts, exactly as the source copies them without a `|| 0` default. -/
structure TopRepoEntry where
  name : String
  stars : Option Nat
  forks : Option Nat
  description : Option String
  url : String
  language : Option String
deriving DecidableEq

/-- The error taxonomy of the pipeline: the five `throw new Error(...)` sites
of `fetchData` plus the local validation failure.  `unclassified` keeps the
status code and status text so the message can mention them. -/
inductive FetchErr where
  | validation
  | notFound
  | rateLimited
  | unauthorized
  | unclassified (status : Nat) (statusText : String)
  | emptyResult
  | noLanguageData
deriving DecidableEq

/-- An HTTP response: either `ok` with a parsed JSON body, or a non-ok
response carrying its status code and status text. -/
inductive Resp (α : Type) where
  | ok (body : α)
  | fail (status : Nat) (statusText : String)
deriving DecidableEq

/-- The status-code classification performed (identically) at the profile
request and at every page request:
`404 → NotFound, 403 → RateLimited, 401 → Unauthorized`, anything else
`Unclassified`.  Direct transcription of the `if (response.status === ...)`
cascade. -/
def classify (status : Nat) (statusText : String) : FetchErr :=
  if status = 404 then .notFound
  else if status = 403 then .rateLimited
  else if status = 401 then .unauthorized
  else .unclassified status statusText

/-- The human-readable message attached to each error, verbatim from the
verbatim `Error` constructor arguments of the source. -/
def errMessage : FetchErr → String
  | .validation => "Please enter a GitHub username first."
  | .notFound => "User not found. Check the username."
  | .rateLimited => "API Rate limit exceeded. Wait a while or add a GitHub Token below."
  | .unauthorized => "Invalid GitHub Token."
  | .unclassified status statusText =>
      "GitHub API Error: " ++ toString status ++ " " ++ statusText
  | .emptyResult => "No public repositories found for this user."
  | .noLanguageData => "Repositories found, but no language data detected."

/-- JS truthiness of the `language` field: `null`/absent and the empty string
are falsy, every other string is truthy (`if (repo.language)`). -/
def truthyLang : Option String → Bool
  | none => false
  | some s => !(s == "")

/-- The sequence of truthy language strings of a record list, in record
order: exactly the keys in the order the `forEach` loop feeds them into
`langMap`. -/
def langs (rs : List Repo) : List String :=
  rs.filterMap fun r =>
    match r.language with
    | some s => if s = "" then none else some s
    | none => none

/-- Model of `langMap[s] = (langMap[s] || 0) + 1` on an association list: increment the
entry of `s` in place if present, otherwise append a fresh entry `(s, 1)` at
the end (JS object property creation appends in enumeration order). -/
def bump : List (String × Nat) → String → List (String × Nat)
  | [], s => [(s, 1)]
  | (k, v) :: m, s => if k = s then (k, v + 1) :: m else (k, v) :: bump m s

/-- The `allRepos.forEach` loop that fills `langMap`, skipping records whose
`language` is falsy. -/
def langMapAux (m : List (String × Nat)) : List Repo → List (String × Nat)
  | [] => m
  | r :: rs =>
    match r.language with
    | some s => if s = "" then langMapAux m rs else langMapAux (bump m s) rs
    | none => langMapAux m rs

/-- The finished `langMap` of a record list. -/
def langMapOf (rs : List Repo) : List (String × Nat) := langMapAux [] rs

/-- The `hasLang` flag: set iff some record has a truthy `language`. -/
def hasLang (rs : List Repo) : Bool := rs.any fun r => truthyLang r.language

/-- Model of `Object.keys(langMap).map(lang => ({name: lang, value: langMap[lang]}))`:
the histogram entries in key-insertion (first-seen) order, before sorting. -/
def langEntries (rs : List Repo) : List LangCount :=
  (langMapOf rs).map fun p => ⟨p.1, p.2⟩

/-- Stable insertion step for a descending sort by `key`: the new element `x`
(which originally precedes every element of the list) goes in front of the
first element whose key is `≤ key x`. -/
def insertKey (key : α → Nat) (x : α) : List α → List α
  | [] => [x]
  | y :: ys => if key y ≤ key x then x :: y :: ys else y :: insertKey key x ys

/-- Stable descending sort by `key`.  `Array.prototype.sort` with comparator
`(a, b) => key(b) - key(a)` is required by the spec of `sort` to produce a
stable, comparator-sorted permutation; that output is unique, and this
insertion sort produces it. -/
def sortKeyDesc (key : α → Nat) : List α → List α
  | [] => []
  | x :: xs => insertKey key x (sortKeyDesc key xs)

/-- Model of `processedData`: histogram entries sorted by `.sort((a, b) => b.value - a.value)`. -/
def processedData (rs : List Repo) : List LangCount :=
  sortKeyDesc (fun e => e.value) (langEntries rs)

/-- Model of `repo.stargazers_count || 0`. -/
def starsD (r : Repo) : Nat := r.stargazers_count.getD 0

/-- Model of `repo.forks_count || 0`. -/
def forksD (r : Repo) : Nat := r.forks_count.getD 0

/-- Model of `allRepos.reduce((sum, repo) => sum + (repo.stargazers_count || 0), 0)`. -/
def totalStars (rs : List Repo) : Nat :=
  rs.foldl (fun sum r => sum + starsD r) 0

/-- Model of `allRepos.reduce((sum, repo) => sum + (repo.forks_count || 0), 0)`. -/
def totalForks (rs : List Repo) : Nat :=
  rs.foldl (fun sum r => sum + forksD r) 0

/-- Model of `Math.round` on a non-negative quotient: the closest integer, half-way
cases rounding up, i.e. `⌊q + 1/2⌋`.  (The source divides two exact small
naturals, so IEEE rounding of the quotient cannot move it across a
half-integer boundary at these magnitudes.) -/
def mathRound (q : ℚ) : ℤ := ⌊q + 1 / 2⌋

/-- Model of `Math.round(totalStars / allRepos.length)`. -/
def avgStars (rs : List Repo) : ℤ :=
  mathRound ((totalStars rs : ℚ) / (rs.length : ℚ))

/-- The `repoStats` record `{ totalStars, totalForks, avgStars }`. -/
structure RepoStats where
  totalStars : Nat
  totalForks : Nat
  avgStars : ℤ
deriving DecidableEq

/-- The stats computed for a record list. -/
def statsOf (rs : List Repo) : RepoStats :=
  ⟨totalStars rs, totalForks rs, avgStars rs⟩

/-- The projection applied to each of the top 5 records. -/
def toTopEntry (r : Repo) : TopRepoEntry :=
  ⟨r.name, r.stargazers_count, r.forks_count, r.description, r.html_url, r.language⟩

/-- Model of `allRepos.sort((a, b) => (b.stargazers_count || 0) - (a.stargazers_count || 0)).slice(0, 5).map(...)`. -/
def top5Repos (rs : List Repo) : List TopRepoEntry :=
  ((sortKeyDesc starsD rs).take 5).map toTopEntry

/-- Items of a page response; a failed response contributes no items (the
loop throws before concatenating). -/
def pageItems (src : Nat → Resp (List Repo)) (p : Nat) : List Repo :=
  match src p with
  | .ok l => l
  | .fail _ _ => []

/-- The `while (true)` pagination loop.  `rem` is the remaining page budget
`maxPages - page`; the break condition of the source `page >= maxPages` holds
exactly when `rem = 0` (the loop starts at `page = 1` with
`rem = maxPages - 1`).  Each iteration fetches `page`; a non-ok response
throws the classified error immediately; otherwise the items are appended and
the loop stops if the page was short (`repos.length < perPage`) or the budget
is exhausted.  The second component is the trace of requested page numbers in
request order. -/
def pageLoop (src : Nat → Resp (List Repo)) (perPage : Nat) :
    Nat → Nat → List Repo → Except FetchErr (List Repo) × List Nat
  | rem, page, acc =>
    match src page with
    | .fail s t => (.error (classify s t), [page])
    | .ok repos =>
      if repos.length < perPage then (.ok (acc ++ repos), [page])
      else
        match rem with
        | 0 => (.ok (acc ++ repos), [page])
        | r + 1 =>
          let next := pageLoop src perPage r (page + 1) (acc ++ repos)
          (next.1, page :: next.2)

/-- The paginator: fetch pages `1, 2, ...` until a short page or the
`maxPages` safety cap, returning the concatenated items (or the first
classified failure) together with the trace of issued page requests. -/
def fetchAllPages (src : Nat → Resp (List Repo)) (perPage maxPages : Nat) :
    Except FetchErr (List Repo) × List Nat :=
  pageLoop src perPage (maxPages - 1) 1 []

/-- JS `String.prototype.trim()`: strip leading and trailing whitespace.
Implemented on the character list so that it is kernel-computable. -/
def jsTrim (s : String) : String :=
  ⟨((s.data.dropWhile Char.isWhitespace).reverse.dropWhile Char.isWhitespace).reverse⟩

/-- The successful result bundle exposed to the presentation layer. -/
structure FetchOutput where
  profile : UserProfile
  languages : List LangCount
  stats : RepoStats
  topRepos : List TopRepoEntry
  repoCount : Nat
deriving DecidableEq

/-- The orchestration of one `fetchData` invocation as a pure function:
validate the (trimmed) user name, fetch the profile, run the paginator with
the constants of the source `perPage = 100`, `maxPages = 10`, reject an empty
repository list, reject a list without language data, otherwise aggregate.
Besides the `Except` outcome it returns whether the profile request was
issued and the trace of issued page requests. -/
def runFetch (user : String) (profileSrc : Resp UserProfile)
    (pagesSrc : Nat → Resp (List Repo)) :
    Except FetchErr FetchOutput × Bool × List Nat :=
  if jsTrim user = "" then (.error .validation, false, [])
  else
    match profileSrc with
    | .fail s t => (.error (classify s t), true, [])
    | .ok profile =>
      let paged := fetchAllPages pagesSrc 100 10
      match paged.1 with
      | .error e => (.error e, true, paged.2)
      | .ok repos =>
        if repos.length = 0 then (.error .emptyResult, true, paged.2)
        else if !hasLang repos then (.error .noLanguageData, true, paged.2)
        else
          (.ok ⟨profile, processedData repos, statsOf repos, top5Repos repos,
              repos.length⟩, true, paged.2)

/-- The observable React state touched by `fetchData`: exactly the state
hooks the function writes. -/
structure AppState where
  loading : Bool
  error : Option String
  data : Option (List LangCount)
  userProfile : Option UserProfile
  topRepos : List TopRepoEntry
  repoStats : RepoStats
  repoCount : Nat
deriving DecidableEq

/-- The body of `fetchData` after the initial
`setLoading(true); setError(null); setData(null); setUserProfile(null)`
writes, applied to the state `st1` those writes produced: the `try` block
with each `set*` call an update of the corresponding field, a `throw` landing
in the `catch` that stores the error message, and the `finally` clearing
`loading`. -/
def fetchDataBody (st1 : AppState) (profileSrc : Resp UserProfile)
    (pagesSrc : Nat → Resp (List Repo)) : AppState :=
  match profileSrc with
  | .fail s t =>
      { st1 with error := some (errMessage (classify s t)), loading := false }
  | .ok profile =>
    let st2 := { st1 with userProfile := some profile }
    let paged := fetchAllPages pagesSrc 100 10
    match paged.1 with
    | .error e => { st2 with error := some (errMessage e), loading := false }
    | .ok repos =>
      let st3 := { st2 with repoCount := repos.length }
      if repos.length = 0 then
        { st3 with error := some (errMessage .emptyResult), loading := false }
      else if !hasLang repos then
        { st3 with error := some (errMessage .noLanguageData), loading := false }
      else
        { st3 with
          repoStats := statsOf repos, topRepos := top5Repos repos,
          data := some (processedData repos), loading := false }

/-- One complete `fetchData` invocation as a transition on the observable
state: the early validation return only writes `error`; otherwise the entry
writes (`loading := true`, clear `error`, `data`, `userProfile`) happen and
then the body runs. -/
def fetchDataState (st : AppState) (user : String) (profileSrc : Resp UserProfile)
    (pagesSrc : Nat → Resp (List Repo)) : AppState :=
  if jsTrim user = "" then { st with error := some (errMessage .validation) }
  else
    fetchDataBody
      { st with loading := true, error := none, data := none, userProfile := none }
      profileSrc pagesSrc

/-- The distinct truthy languages of a string list in order of first
occurrence: the key enumeration order of the JS object built by repeated
`bump`s. -/
def firstSeen : List String → List String
  | [] => []
  | s :: ls => s :: (firstSeen ls).filter fun t => t != s

deriving instance DecidableEq for Except

/-! ## Concrete fixtures used to exercise the pipeline -/

/-- A record with no optional data at all. -/
def dummyRepo : Repo := ⟨"r", none, none, none, none, "u"⟩

/-- A record carrying a language, used to populate successful pages. -/
def goRepo : Repo := ⟨"g", some ("Go"), some 1, some 0, none, "u"⟩

/-- The end-to-end example records of the spec:
languages `Go, Go, null, Rust` with stars `10, 5, 1, 20`. -/
def exRepos : List Repo :=
  [⟨"a", some ("Go"), some 10, some 2, none, "u"⟩,
   ⟨"b", some ("Go"), some 5, some 1, none, "u"⟩,
   ⟨"c", none, some 1, none, none, "u"⟩,
   ⟨"d", some ("Rust"), some 20, some 7, none, "u"⟩]

/-- Records whose only language datum is the empty string next to a real one. -/
def cexRepos : List Repo :=
  [⟨"a", some ("Go"), none, none, none, "u"⟩,
   ⟨"b", some (""), none, none, none, "u"⟩]

/-- A mock source with full pages 1-3 and a 99-item page 4. -/
def mock4Src : Nat → Resp (List Repo) := fun p =>
  .ok (List.replicate (if p ≤ 3 then 100 else 99) dummyRepo)

/-- A mock source that always returns a full page. -/
def fullSrc : Nat → Resp (List Repo) := fun _ => .ok (List.replicate 100 dummyRepo)

/-- A mock source: a successful full page 1, then 403 on every later page. -/
def limitedSrc : Nat → Resp (List Repo) := fun p =>
  if p = 1 then .ok (List.replicate 100 goRepo) else .fail 403 ("Forbidden")

/-- A mock source delivering a single short page with no items. -/
def emptySrc : Nat → Resp (List Repo) := fun _ => .ok []

/-- A mock source delivering one short page of records without usable
language metadata (one `null`, one empty string). -/
def noLangSrc : Nat → Resp (List Repo) := fun _ =>
  .ok [⟨"a", none, some 3, none, none, "u"⟩, ⟨"b", some (""), none, none, none, "u"⟩]

/-- A mock source delivering one short page with the example records. -/
def exSrc : Nat → Resp (List Repo) := fun _ => .ok exRepos

/-- A profile fixture. -/
def exProfile : UserProfile := ⟨"octocat"⟩

/-- The initial observable state of the application: the `useState` initial
values. -/
def st0 : AppState :=
  { loading := false, error := none, data := none, userProfile := none,
    topRepos := [], repoStats := ⟨0, 0, 0⟩, repoCount := 0 }

/-! ## Stable descending insertion sort -/

theorem insertKey_perm (key : α → Nat) (x : α) (l : List α) :
    (insertKey key x l).Perm (x :: l) := by
  induction l with
  | nil => simp [insertKey]
  | cons y ys ih =>
    simp only [insertKey]
    split
    · exact List.Perm.refl _
    · exact ((ih.cons y).trans (List.Perm.swap x y ys)).symm.symm

theorem sortKeyDesc_perm (key : α → Nat) (l : List α) :
    (sortKeyDesc key l).Perm l := by
  induction l with
  | nil => simp [sortKeyDesc]
  | cons x xs ih =>
    exact (insertKey_perm key x (sortKeyDesc key xs)).trans (ih.cons x)

theorem mem_insertKey (key : α → Nat) (x a : α) (l : List α) :
    a ∈ insertKey key x l ↔ a = x ∨ a ∈ l := by
  have := (insertKey_perm key x l).mem_iff (a := a)
  simpa using this

theorem insertKey_pairwise (key : α → Nat) (x : α) (l : List α)
    (h : l.Pairwise fun a b => key b ≤ key a) :
    (insertKey key x l).Pairwise fun a b => key b ≤ key a := by
  induction l with
  | nil => simp [insertKey]
  | cons y ys ih =>
    rcases h with _ | ⟨hy, hys⟩
    simp only [insertKey]
    split
    · rename_i hyx
      refine List.Pairwise.cons ?_ (List.Pairwise.cons hy hys)
      intro b hb
      rcases List.mem_cons.mp hb with rfl | hb
      · exact hyx
      · exact le_trans (hy b hb) hyx
    · rename_i hyx
      refine List.Pairwise.cons ?_ (ih hys)
      intro b hb
      rcases (mem_insertKey key x b ys).mp hb with rfl | hb
      · omega
      · exact hy b hb

theorem sortKeyDesc_pairwise (key : α → Nat) (l : List α) :
    (sortKeyDesc key l).Pairwise fun a b => key b ≤ key a := by
  induction l with
  | nil => simp [sortKeyDesc]
  | cons x xs ih => exact insertKey_pairwise key x _ ih

theorem insertKey_filter_eq (key : α → Nat) (x : α) (l : List α) (v : Nat) :
    (insertKey key x l).filter (fun a => key a == v)
      = (x :: l).filter (fun a => key a == v) := by
  induction l with
  | nil => simp [insertKey]
  | cons y ys ih =>
    simp only [insertKey]
    split
    · rfl
    · rename_i hlt
      simp only [List.filter_cons, ih]
      split_ifs with h1 h2 <;> first
        | rfl
        | (exfalso; simp only [beq_iff_eq] at h1 h2; omega)

theorem sortKeyDesc_filter_eq (key : α → Nat) (l : List α) (v : Nat) :
    (sortKeyDesc key l).filter (fun a => key a == v)
      = l.filter (fun a => key a == v) := by
  induction l with
  | nil => simp [sortKeyDesc]
  | cons x xs ih =>
    simp only [sortKeyDesc]
    rw [insertKey_filter_eq]
    simp only [List.filter_cons]
    rw [ih]

/-! ## The language map as an insertion-ordered association list -/

/-- Model of `langMap[k] || 0`: defaulted lookup in the association list. -/
def lkD (m : List (String × Nat)) (k : String) : Nat :=
  match m with
  | [] => 0
  | (a, v) :: m => if a = k then v else lkD m k

theorem langMapAux_eq (m : List (String × Nat)) (rs : List Repo) :
    langMapAux m rs = (langs rs).foldl bump m := by
  induction rs generalizing m with
  | nil => rfl
  | cons r rs ih =>
    simp only [langMapAux, langs, List.filterMap_cons]
    rcases hr : r.language with _ | s
    · exact ih m
    · by_cases hs : s = "" <;> simp only [hs, if_true, if_false, List.foldl_cons]
      · exact ih m
      · simp only [langs] at ih
        exact ih (bump m s)

theorem bump_keys (m : List (String × Nat)) (s : String) :
    (bump m s).map Prod.fst =
      if s ∈ m.map Prod.fst then m.map Prod.fst else m.map Prod.fst ++ [s] := by
  induction m with
  | nil => simp [bump]
  | cons p m ih =>
    obtain ⟨k, v⟩ := p
    by_cases hk : k = s
    · simp [bump, hk]
    · have hsk : ¬s = k := fun h => hk h.symm
      simp only [bump, if_neg hk, List.map_cons, ih, List.mem_cons, hsk, false_or]
      by_cases hs : s ∈ m.map Prod.fst <;> simp [hs]

theorem bump_lkD (m : List (String × Nat)) (s k : String) :
    lkD (bump m s) k = if k = s then lkD m s + 1 else lkD m k := by
  induction m with
  | nil =>
    by_cases hk : k = s
    · simp [bump, lkD, hk]
    · have hsk : ¬s = k := fun h => hk h.symm
      simp [bump, lkD, hk, hsk]
  | cons p m ih =>
    obtain ⟨a, v⟩ := p
    by_cases ha : a = s
    · subst ha
      by_cases hk : k = a
      · simp [bump, lkD, hk]
      · have hak : ¬a = k := fun h => hk h.symm
        simp [bump, lkD, hk, hak]
    · by_cases hak : a = k <;> by_cases hks : k = s <;>
        simp_all [bump, lkD]
  
theorem bump_sum (m : List (String × Nat)) (s : String) :
    ((bump m s).map Prod.snd).sum = (m.map Prod.snd).sum + 1 := by
  induction m with
  | nil => simp [bump]
  | cons p m ih =>
    obtain ⟨a, v⟩ := p
    by_cases ha : a = s <;> simp [bump, ha, ih] <;> omega

theorem firstSeen_nodup (ls : List String) : (firstSeen ls).Nodup := by
  induction ls with
  | nil => simp [firstSeen]
  | cons s ls ih =>
    simp only [firstSeen, List.nodup_cons]
    constructor
    · intro hmem
      have := List.of_mem_filter hmem
      simp at this
    · exact ih.filter _

theorem mem_firstSeen (ls : List String) (t : String) :
    t ∈ firstSeen ls ↔ t ∈ ls := by
  induction ls with
  | nil => simp [firstSeen]
  | cons s ls ih =>
    simp only [firstSeen, List.mem_cons]
    by_cases ht : t = s
    · simp [ht]
    · simp only [List.mem_filter, ih, bne_iff_ne, ne_eq, ht, not_false_iff,
        and_true, false_or]

theorem foldl_bump_keys (ls : List String) :
    ∀ m : List (String × Nat),
      (ls.foldl bump m).map Prod.fst
        = m.map Prod.fst
            ++ (firstSeen ls).filter fun t => decide (t ∉ m.map Prod.fst) := by
  induction ls with
  | nil => intro m; simp [firstSeen]
  | cons s ls ih =>
    intro m
    simp only [List.foldl_cons, ih (bump m s), bump_keys, firstSeen]
    by_cases hs : s ∈ m.map Prod.fst
    · rw [if_pos hs]
      congr 1
      rw [List.filter_cons_of_neg (by simp [hs]), List.filter_filter]
      apply List.filter_congr
      intro a _
      by_cases hax : a ∈ m.map Prod.fst
      · simp [hax]
      · have hne : a ≠ s := fun h => hax (h ▸ hs)
        simp [hax, hne]
    · rw [if_neg hs, List.filter_cons_of_pos (by simp [hs]), List.append_assoc,
        List.singleton_append, List.filter_filter]
      congr 1
      congr 1
      apply List.filter_congr
      intro a _
      by_cases hax : a = s
      · simp [hax]
      · by_cases ham : a ∈ m.map Prod.fst <;> simp [hax, ham]

theorem foldl_bump_lkD (ls : List String) :
    ∀ (m : List (String × Nat)) (k : String),
      lkD (ls.foldl bump m) k = lkD m k + ls.count k := by
  induction ls with
  | nil => intro m k; simp
  | cons s ls ih =>
    intro m k
    simp only [List.foldl_cons, ih (bump m s) k, bump_lkD, List.count_cons]
    by_cases hk : k = s
    · simp [hk]
      omega
    · have hsk : ¬(s == k) := by simpa using fun h => hk h.symm
      simp [hk, hsk]

theorem foldl_bump_sum (ls : List String) :
    ∀ m : List (String × Nat),
      ((ls.foldl bump m).map Prod.snd).sum = (m.map Prod.snd).sum + ls.length := by
  induction ls with
  | nil => intro m; simp
  | cons s ls ih =>
    intro m
    simp only [List.foldl_cons, ih (bump m s), bump_sum, List.length_cons]
    omega

theorem langMapOf_keys (rs : List Repo) :
    (langMapOf rs).map Prod.fst = firstSeen (langs rs) := by
  rw [langMapOf, langMapAux_eq, foldl_bump_keys]
  simp

theorem langMapOf_keys_nodup (rs : List Repo) :
    ((langMapOf rs).map Prod.fst).Nodup := by
  rw [langMapOf_keys]; exact firstSeen_nodup _

theorem langMapOf_lkD (rs : List Repo) (k : String) :
    lkD (langMapOf rs) k = (langs rs).count k := by
  simp only [langMapOf, langMapAux_eq, foldl_bump_lkD, lkD, Nat.zero_add]

theorem langMapOf_sum (rs : List Repo) :
    ((langMapOf rs).map Prod.snd).sum = (langs rs).length := by
  simp only [langMapOf, langMapAux_eq, foldl_bump_sum, List.map_nil,
    List.sum_nil, Nat.zero_add]

theorem lkD_of_mem_nodup (m : List (String × Nat)) (k : String) (v : Nat)
    (hnd : (m.map Prod.fst).Nodup) (hmem : (k, v) ∈ m) : lkD m k = v := by
  induction m with
  | nil => simp at hmem
  | cons p m ih =>
    obtain ⟨a, b⟩ := p
    simp only [List.map_cons, List.nodup_cons] at hnd
    rcases List.mem_cons.mp hmem with heq | hmem'
    · obtain ⟨rfl, rfl⟩ := Prod.mk.injEq .. ▸ heq
      · simp [lkD]
    · have hak : a ≠ k := by
        intro h
        exact hnd.1 (h ▸ (List.mem_map.mpr ⟨(k, v), hmem', rfl⟩))
      simp [lkD, hak, ih hnd.2 hmem']

theorem mem_langs (rs : List Repo) (s : String) :
    s ∈ langs rs ↔ s ≠ "" ∧ ∃ r ∈ rs, r.language = some s := by
  simp only [langs, List.mem_filterMap]
  constructor
  · rintro ⟨r, hr, hf⟩
    rcases hl : r.language with _ | t <;> rw [hl] at hf
    · simp at hf
    · by_cases ht : t = "" <;> simp [ht] at hf
      subst hf
      exact ⟨ht, r, hr, hl⟩
  · rintro ⟨hs, r, hr, hl⟩
    exact ⟨r, hr, by simp [hl, hs]⟩

theorem length_langs (rs : List Repo) :
    (langs rs).length = (rs.filter fun r => truthyLang r.language).length := by
  induction rs with
  | nil => rfl
  | cons r rs ih =>
    simp only [langs, List.filterMap_cons, List.filter_cons] at ih ⊢
    rcases hl : r.language with _ | t
    · simpa [truthyLang] using ih
    · by_cases ht : t = "" <;> simp [truthyLang, ht, ih]

theorem count_langs (rs : List Repo) (k : String) (hk : k ≠ "") :
    (langs rs).count k = (rs.filter fun r => r.language == some k).length := by
  induction rs with
  | nil => rfl
  | cons r rs ih =>
    simp only [langs, List.filterMap_cons, List.filter_cons] at ih ⊢
    rcases hl : r.language with _ | t
    · simp [ih]
    · by_cases ht : t = ""
      · subst ht
        have : ¬((some ("") : Option String) == some k) := by simpa using fun h => hk h.symm
        simp [this, ih]
      · by_cases htk : t = k
        · subst htk
          simp [List.count_cons, ht, ih]
        · have h1 : ¬((t : String) == k) := by simpa using htk
          have h2 : ¬((some t : Option String) == some k) := by simpa using htk
          simp [List.count_cons, ht, h1, h2, ih]

/-! ## Pagination loop invariants -/

theorem pageLoop_eq (src : Nat → Resp (List Repo)) (pp rem page : Nat)
    (acc : List Repo) :
    pageLoop src pp rem page acc =
      match src page with
      | .fail s t => (.error (classify s t), [page])
      | .ok repos =>
        if repos.length < pp then (.ok (acc ++ repos), [page])
        else
          match rem with
          | 0 => (.ok (acc ++ repos), [page])
          | r + 1 =>
            let next := pageLoop src pp r (page + 1) (acc ++ repos)
            (next.1, page :: next.2) := by
  rw [pageLoop]

theorem pageLoop_fail (src : Nat → Resp (List Repo)) (pp rem page : Nat)
    (acc : List Repo) (s : Nat) (t : String) (h : src page = .fail s t) :
    pageLoop src pp rem page acc = (.error (classify s t), [page]) := by
  rw [pageLoop_eq, h]

theorem pageLoop_short (src : Nat → Resp (List Repo)) (pp rem page : Nat)
    (acc l : List Repo) (h : src page = .ok l) (hlen : l.length < pp) :
    pageLoop src pp rem page acc = (.ok (acc ++ l), [page]) := by
  rw [pageLoop_eq, h]
  simp [hlen]

theorem pageLoop_last (src : Nat → Resp (List Repo)) (pp page : Nat)
    (acc l : List Repo) (h : src page = .ok l) (hlen : ¬l.length < pp) :
    pageLoop src pp 0 page acc = (.ok (acc ++ l), [page]) := by
  rw [pageLoop_eq, h]
  simp [hlen]

theorem pageLoop_step (src : Nat → Resp (List Repo)) (pp r page : Nat)
    (acc l : List Repo) (h : src page = .ok l) (hlen : ¬l.length < pp) :
    pageLoop src pp (r + 1) page acc
      = ((pageLoop src pp r (page + 1) (acc ++ l)).1,
         page :: (pageLoop src pp r (page + 1) (acc ++ l)).2) := by
  rw [pageLoop_eq, h]
  simp [hlen]

theorem pageLoop_spec (src : Nat → Resp (List Repo)) (pp : Nat) :
    ∀ (rem page : Nat) (acc : List Repo), ∃ k, 1 ≤ k ∧ k ≤ rem + 1 ∧
      (pageLoop src pp rem page acc).2 = List.range' page k ∧
      (∀ j, j + 1 < k → ∃ l, src (page + j) = .ok l ∧ pp ≤ l.length) ∧
      (∀ e, (pageLoop src pp rem page acc).1 = .error e →
        ∃ s t, src (page + (k - 1)) = .fail s t ∧ e = classify s t) ∧
      (∀ items, (pageLoop src pp rem page acc).1 = .ok items →
        items = acc ++ ((List.range' page k).map (pageItems src)).flatten ∧
        ∀ j, j < k → ∃ l, src (page + j) = .ok l) := by
  intro rem
  induction rem with
  | zero =>
    intro page acc
    rcases h : src page with l | ⟨s, t⟩
    case ok =>
      by_cases hlen : l.length < pp
      all_goals
        first
        | have hres := pageLoop_short src pp 0 page acc l h hlen
        | have hres := pageLoop_last src pp page acc l h hlen
      all_goals
        refine ⟨1, le_refl 1, by omega, by simp [hres, List.range'_one],
          fun j hj => absurd hj (by omega), ?_, ?_⟩
      case pos.refine_1 | neg.refine_1 =>
        intro e he
        rw [hres] at he
        exact absurd he (by simp)
      all_goals
        intro items hi
        rw [hres] at hi
        injection hi with hi
        refine ⟨?_, ?_⟩
        · rw [← hi]
          simp [List.range'_one, pageItems, h]
        · intro j hj
          interval_cases j
          exact ⟨l, h⟩
    case fail =>
      have hres := pageLoop_fail src pp 0 page acc s t h
      refine ⟨1, le_refl 1, by omega, by simp [hres, List.range'_one],
        fun j hj => absurd hj (by omega), ?_, ?_⟩
      · intro e he
        rw [hres] at he
        injection he with he
        exact ⟨s, t, by simpa using h, he.symm⟩
      · intro items hi
        rw [hres] at hi
        exact absurd hi (by simp)
  | succ r ih =>
    intro page acc
    rcases h : src page with l | ⟨s, t⟩
    case fail =>
      have hres := pageLoop_fail src pp (r + 1) page acc s t h
      refine ⟨1, le_refl 1, by omega, by simp [hres, List.range'_one],
        fun j hj => absurd hj (by omega), ?_, ?_⟩
      · intro e he
        rw [hres] at he
        injection he with he
        exact ⟨s, t, by simpa using h, he.symm⟩
      · intro items hi
        rw [hres] at hi
        exact absurd hi (by simp)
    case ok =>
      by_cases hlen : l.length < pp
      · have hres := pageLoop_short src pp (r + 1) page acc l h hlen
        refine ⟨1, le_refl 1, by omega, by simp [hres, List.range'_one],
          fun j hj => absurd hj (by omega), ?_, ?_⟩
        · intro e he
          rw [hres] at he
          exact absurd he (by simp)
        · intro items hi
          rw [hres] at hi
          injection hi with hi
          refine ⟨?_, ?_⟩
          · rw [← hi]
            simp [List.range'_one, pageItems, h]
          · intro j hj
            interval_cases j
            exact ⟨l, h⟩
      · have hres := pageLoop_step src pp r page acc l h hlen
        obtain ⟨k, hk1, hk2, htr, hfull, herr, hok⟩ := ih (page + 1) (acc ++ l)
        refine ⟨k + 1, by omega, by omega, ?_, ?_, ?_, ?_⟩
        · rw [hres]
          simp only [htr, List.range'_succ]
        · intro j hj
          match j with
          | 0 => exact ⟨l, by simpa using h, by omega⟩
          | jj + 1 =>
            obtain ⟨l', hl', hpl'⟩ := hfull jj (by omega)
            refine ⟨l', ?_, hpl'⟩
            rw [show page + (jj + 1) = page + 1 + jj by omega]
            exact hl'
        · intro e he
          rw [hres] at he
          obtain ⟨s', t', hs', hc'⟩ := herr e he
          refine ⟨s', t', ?_, hc'⟩
          rw [show page + (k + 1 - 1) = page + 1 + (k - 1) by omega]
          exact hs'
        · intro items hi
          rw [hres] at hi
          obtain ⟨hitems, hpages⟩ := hok items hi
          refine ⟨?_, ?_⟩
          · rw [hitems, List.range'_succ]
            simp [pageItems, h, List.append_assoc]
          · intro j hj
            match j with
            | 0 => exact ⟨l, by simpa using h⟩
            | jj + 1 =>
              obtain ⟨l', hl'⟩ := hpages jj (by omega)
              refine ⟨l', ?_⟩
              rw [show page + (jj + 1) = page + 1 + jj by omega]
              exact hl'

theorem pageLoop_full (src : Nat → Resp (List Repo)) (pp : Nat)
    (hfull : ∀ p, ∃ l, src p = .ok l ∧ l.length = pp) :
    ∀ (rem page : Nat) (acc : List Repo),
      (pageLoop src pp rem page acc).2.length = rem + 1 ∧
      ∃ items, (pageLoop src pp rem page acc).1 = .ok items ∧
        items.length = acc.length + (rem + 1) * pp := by
  intro rem
  induction rem with
  | zero =>
    intro page acc
    obtain ⟨l, hl, hlen⟩ := hfull page
    have hnl : ¬l.length < pp := by omega
    have hres := pageLoop_last src pp page acc l hl hnl
    refine ⟨by simp [hres], acc ++ l, by simp [hres], ?_⟩
    simp [hlen]
  | succ r ih =>
    intro page acc
    obtain ⟨l, hl, hlen⟩ := hfull page
    have hnl : ¬l.length < pp := by omega
    have hres := pageLoop_step src pp r page acc l hl hnl
    obtain ⟨htr, items, hit, hilen⟩ := ih (page + 1) (acc ++ l)
    refine ⟨by simp [hres, htr], items, by simp [hres, hit], ?_⟩
    rw [hilen, List.length_append, hlen]
    ring

/-! ## Arithmetic helpers -/

theorem foldl_add_eq_sum (f : Repo → Nat) (rs : List Repo) :
    ∀ n : Nat, rs.foldl (fun sum r => sum + f r) n = n + (rs.map f).sum := by
  induction rs with
  | nil => intro n; simp
  | cons r rs ih =>
    intro n
    simp only [List.foldl_cons, List.map_cons, List.sum_cons, ih (n + f r)]
    omega

theorem mathRound_close (q : ℚ) : |(mathRound q : ℚ) - q| ≤ 1 / 2 := by
  rw [abs_le]
  have h1 := Int.floor_le (q + 1 / 2)
  have h2 := Int.lt_floor_add_one (q + 1 / 2)
  unfold mathRound
  constructor <;> push_cast at h1 h2 ⊢ <;> linarith

theorem flatten_length_le (L : List (List Repo)) (pp : Nat)
    (h : ∀ l ∈ L, l.length ≤ pp) : L.flatten.length ≤ pp * L.length := by
  induction L with
  | nil => simp
  | cons l L ih =>
    simp only [List.flatten_cons, List.length_append, List.length_cons]
    have h1 : l.length ≤ pp := h l (by simp)
    have h2 := ih fun x hx => h x (by simp [hx])
    calc l.length + L.flatten.length ≤ pp + pp * L.length := by omega
    _ = pp * (L.length + 1) := by ring

/-! ## Helpers about skipped language values -/

theorem langs_append (a b : List Repo) : langs (a ++ b) = langs a ++ langs b := by
  simp [langs, List.filterMap_append]

theorem langs_cons_skip (r : Repo) (rs : List Repo)
    (hr : r.language = none ∨ r.language = some ("")) :
    langs (r :: rs) = langs rs := by
  rcases hr with hr | hr <;> simp [langs, List.filterMap_cons, hr]

theorem processedData_eq_of_langs (rs rs' : List Repo)
    (h : langs rs = langs rs') : processedData rs = processedData rs' := by
  unfold processedData langEntries langMapOf
  rw [langMapAux_eq, langMapAux_eq, h]

theorem hasLang_eq_false_iff (rs : List Repo) :
    hasLang rs = false ↔ ∀ r ∈ rs, r.language = none ∨ r.language = some ("") := by
  unfold hasLang
  rw [List.any_eq_false]
  constructor <;> intro h r hr
  · have := h r hr
    rcases hl : r.language with _ | s
    · exact Or.inl rfl
    · rw [hl] at this
      right
      have hs : s = "" := by
        by_contra hs
        exact this (by simp [truthyLang, hs])
      rw [hs]
  · rcases h r hr with hl | hl <;> simp [truthyLang, hl]

theorem truthyLang_false_of_skip (o : Option String)
    (h : o = none ∨ o = some ("")) : truthyLang o = false := by
  rcases h with h | h <;> simp [truthyLang, h]

/-! ## Claim theorems -/

/-- C6: for every failing HTTP response on any request the pipeline issues
(profile lookup and page requests alike), status 404 maps to NotFound, 403 to
RateLimited, 401 to Unauthorized, and every other non-2xx status to
Unclassified with a message containing the status code and status text; the
profile request and every page request use this one mapping. -/
theorem classifierSpec :
    (∀ t, classify 404 t = .notFound) ∧
    (∀ t, classify 403 t = .rateLimited) ∧
    (∀ t, classify 401 t = .unauthorized) ∧
    (∀ s t, ¬(200 ≤ s ∧ s ≤ 299) → s ≠ 404 → s ≠ 403 → s ≠ 401 →
      classify s t = .unclassified s t ∧
      errMessage (classify s t) = "GitHub API Error: " ++ toString s ++ " " ++ t) ∧
    (∀ u pgs s t, jsTrim u ≠ "" →
      (runFetch u (.fail s t) pgs).1 = .error (classify s t)) ∧
    (∀ src pp mp e, (fetchAllPages src pp mp).1 = .error e →
      ∃ p s t, p ∈ (fetchAllPages src pp mp).2 ∧ src p = .fail s t ∧
        e = classify s t) := by
  refine ⟨fun t => rfl, fun t => rfl, fun t => rfl, ?_, ?_, ?_⟩
  · intro s t h2xx h404 h403 h401
    constructor
    · simp [classify, h404, h403, h401]
    · simp [classify, errMessage, h404, h403, h401]
  · intro u pgs s t hu
    simp [runFetch, hu]
  · intro src pp mp e he
    obtain ⟨k, hk1, hk2, htr, hfull, herr, hok⟩ := pageLoop_spec src pp (mp - 1) 1 []
    obtain ⟨s, t, hs, hc⟩ := herr e he
    refine ⟨1 + (k - 1), s, t, ?_, hs, hc⟩
    show 1 + (k - 1) ∈ (fetchAllPages src pp mp).2
    simp only [fetchAllPages, htr]
    rw [List.mem_range'_1]
    omega

/-- Witness for C6 at a concrete unclassified status. -/
theorem classifierSpec_w :
    classify 500 ("Server Error") = .unclassified 500 ("Server Error") ∧
    errMessage (classify 500 ("Server Error"))
      = "GitHub API Error: " ++ toString 500 ++ " " ++ "Server Error" :=
  classifierSpec.2.2.2.1 500 ("Server Error") (by decide) (by decide) (by decide)
    (by decide)

/-- C4: the paginator requests pages `1..N` sequentially in strictly
increasing order, every non-final page it requested was a full page (so it
stops as soon as a page is short), a successful run returns the concatenation
of the pages in request order, and on the mock source with full pages 1-3 and
a 99-item page 4 it issues exactly the four requests `[1, 2, 3, 4]` and
returns `3*100 + 99 = 399` items. -/
theorem paginatorSequentialSpec :
    (∀ src pp mp, ∃ k, 1 ≤ k ∧
      (fetchAllPages src pp mp).2 = List.range' 1 k) ∧
    (∀ src pp mp items, (fetchAllPages src pp mp).1 = .ok items →
      items = ((fetchAllPages src pp mp).2.map (pageItems src)).flatten) ∧
    (∀ src pp mp j, j + 1 < (fetchAllPages src pp mp).2.length →
      ∃ l, src (1 + j) = .ok l ∧ pp ≤ l.length) ∧
    fetchAllPages mock4Src 100 10
      = (.ok (List.replicate 399 dummyRepo), [1, 2, 3, 4]) := by
  refine ⟨?_, ?_, ?_, by decide⟩
  · intro src pp mp
    obtain ⟨k, hk1, _, htr, _⟩ := pageLoop_spec src pp (mp - 1) 1 []
    exact ⟨k, hk1, htr⟩
  · intro src pp mp items hi
    obtain ⟨k, _, _, htr, _, _, hok⟩ := pageLoop_spec src pp (mp - 1) 1 []
    obtain ⟨hitems, _⟩ := hok items hi
    simp only [fetchAllPages, htr]
    rw [hitems]
    simp
  · intro src pp mp j hj
    obtain ⟨k, _, _, htr, hfull, _, _⟩ := pageLoop_spec src pp (mp - 1) 1 []
    simp only [fetchAllPages, htr, List.length_range'] at hj
    exact hfull j hj

/-- Witness for C4: the concatenation equation evaluated on the mock source. -/
theorem paginatorSequentialSpec_w :
    List.replicate 399 dummyRepo
      = ((fetchAllPages mock4Src 100 10).2.map (pageItems mock4Src)).flatten :=
  paginatorSequentialSpec.2.1 mock4Src 100 10 (List.replicate 399 dummyRepo)
    (by decide)

/-- C5: for every source the loop stops after at most `maxPages` requests
(when `maxPages ≥ 1`); a source that always returns a full page gets exactly
`maxPages` requests and yields `maxPages * pageSize` items; when no page
exceeds `pageSize` items the retrievable total is capped at
`pageSize * maxPages`; with the defaults this is 10 requests and 1000 items. -/
theorem paginatorBoundSpec :
    (∀ src pp mp, 1 ≤ mp → (fetchAllPages src pp mp).2.length ≤ mp) ∧
    (∀ src pp mp, 1 ≤ mp → (∀ p, ∃ l, src p = .ok l ∧ l.length = pp) →
      (fetchAllPages src pp mp).2.length = mp ∧
      ∃ items, (fetchAllPages src pp mp).1 = .ok items ∧
        items.length = mp * pp) ∧
    (∀ src pp mp items, 1 ≤ mp → (∀ p l, src p = .ok l → l.length ≤ pp) →
      (fetchAllPages src pp mp).1 = .ok items → items.length ≤ pp * mp) ∧
    ((fetchAllPages fullSrc 100 10).2.length = 10 ∧
      (fetchAllPages fullSrc 100 10).1 = .ok (List.replicate 1000 dummyRepo)) := by
  refine ⟨?_, ?_, ?_, by decide, by decide⟩
  · intro src pp mp hmp
    obtain ⟨k, hk1, hk2, htr, _⟩ := pageLoop_spec src pp (mp - 1) 1 []
    simp only [fetchAllPages, htr, List.length_range']
    omega
  · intro src pp mp hmp hfull
    obtain ⟨htr, items, hit, hilen⟩ := pageLoop_full src pp hfull (mp - 1) 1 []
    have hmp1 : mp - 1 + 1 = mp := by omega
    refine ⟨?_, items, hit, ?_⟩
    · simp only [fetchAllPages, htr, hmp1]
    · rw [hilen, hmp1]
      simp
  · intro src pp mp items hmp hbnd hi
    obtain ⟨k, hk1, hk2, htr, _, _, hok⟩ := pageLoop_spec src pp (mp - 1) 1 []
    obtain ⟨hitems, _⟩ := hok items hi
    rw [hitems]
    simp only [List.nil_append]
    calc ((List.range' 1 k).map (pageItems src)).flatten.length
        ≤ pp * ((List.range' 1 k).map (pageItems src)).length := by
          apply flatten_length_le
          intro l hl
          obtain ⟨p, _, hpl⟩ := List.mem_map.mp hl
          rw [← hpl]
          unfold pageItems
          rcases hp : src p with l' | ⟨s, t⟩
          · exact hbnd p l' hp
          · simp
      _ = pp * k := by simp
      _ ≤ pp * mp := Nat.mul_le_mul le_rfl (by omega)

/-- Witness for C5: the full-page source at the defaults gets exactly 10
requests and 1000 items. -/
theorem paginatorBoundSpec_w :
    (fetchAllPages fullSrc 100 10).2.length = 10 ∧
    ∃ items, (fetchAllPages fullSrc 100 10).1 = .ok items ∧
      items.length = 10 * 100 :=
  paginatorBoundSpec.2.1 fullSrc 100 10 (by decide)
    (fun p => ⟨List.replicate 100 dummyRepo, rfl, by decide⟩)

/-- C7: whenever some page request fails, the paginator aborts at that page
(the trace is `1..k` with page `k` the failing request and every earlier page
a successful full page), surfaces the classified failure, and — the result
being an error — returns none of the items fetched from earlier pages, which
the orchestrator then surfaces unchanged; a 403 on page 2 after a successful
full page 1 produces exactly the requests `[1, 2]` and `RateLimited`, with no
items from page 1 in the result. -/
theorem abortOnPageFailureSpec :
    (∀ src pp mp e, (fetchAllPages src pp mp).1 = .error e →
      ∃ k s t, 1 ≤ k ∧ (fetchAllPages src pp mp).2 = List.range' 1 k ∧
        src k = .fail s t ∧ e = classify s t ∧
        ∀ j, j + 1 < k → ∃ l, src (1 + j) = .ok l ∧ pp ≤ l.length) ∧
    (∀ u pr pgs e tr, jsTrim u ≠ "" → fetchAllPages pgs 100 10 = (.error e, tr) →
      (runFetch u (.ok pr) pgs).1 = .error e) ∧
    fetchAllPages limitedSrc 100 10 = (.error .rateLimited, [1, 2]) := by
  refine ⟨?_, ?_, by decide⟩
  · intro src pp mp e he
    obtain ⟨k, hk1, hk2, htr, hfull, herr, _⟩ := pageLoop_spec src pp (mp - 1) 1 []
    obtain ⟨s, t, hs, hc⟩ := herr e he
    refine ⟨k, s, t, hk1, by simpa only [fetchAllPages] using htr, ?_, hc, hfull⟩
    rw [show k = 1 + (k - 1) by omega]
    exact hs
  · intro u pr pgs e tr hu hpg
    simp [runFetch, hu, hpg]

/-- Witness for C7: the 403-on-page-2 scenario surfaced by the orchestrator. -/
theorem abortOnPageFailureSpec_w :
    (runFetch ("alice") (.ok exProfile) limitedSrc).1 = .error .rateLimited :=
  abortOnPageFailureSpec.2.1 ("alice") exProfile limitedSrc .rateLimited [1, 2]
    (by decide) (by decide)

/-- C8: one fetch invocation runs its phases in order and short-circuits on
the first failure: a username that is empty after trimming fails with the
validation error before any request (no profile request, no page requests);
with a valid name and a successful pagination, an empty item list fails with
`EmptyResult`; a non-empty list without any truthy language fails with
`NoLanguageData`; otherwise the aggregated output is returned. -/
theorem orchestratorPhasesSpec :
    (∀ u psrc pgs, jsTrim u = "" →
      runFetch u psrc pgs = (.error .validation, false, [])) ∧
    (∀ u pr pgs tr, jsTrim u ≠ "" → fetchAllPages pgs 100 10 = (.ok [], tr) →
      (runFetch u (.ok pr) pgs).1 = .error .emptyResult) ∧
    (∀ u pr pgs repos tr, jsTrim u ≠ "" →
      fetchAllPages pgs 100 10 = (.ok repos, tr) → repos ≠ [] →
      hasLang repos = false →
      (runFetch u (.ok pr) pgs).1 = .error .noLanguageData) ∧
    (∀ u pr pgs repos tr, jsTrim u ≠ "" →
      fetchAllPages pgs 100 10 = (.ok repos, tr) → repos ≠ [] →
      hasLang repos = true →
      (runFetch u (.ok pr) pgs).1
        = .ok ⟨pr, processedData repos, statsOf repos, top5Repos repos,
            repos.length⟩) := by
  refine ⟨?_, ?_, ?_, ?_⟩
  · intro u psrc pgs hu
    simp [runFetch, hu]
  · intro u pr pgs tr hu hpg
    simp [runFetch, hu, hpg]
  · intro u pr pgs repos tr hu hpg hne hhl
    have h0 : ¬repos.length = 0 := by
      simpa using fun h => hne (List.length_eq_zero.mp h)
    simp [runFetch, hu, hpg, h0, hhl]
  · intro u pr pgs repos tr hu hpg hne hhl
    have h0 : ¬repos.length = 0 := by
      simpa using fun h => hne (List.length_eq_zero.mp h)
    simp [runFetch, hu, hpg, h0, hhl]

/-- Witness for C8: the validation phase and the no-language phase at
concrete inputs. -/
theorem orchestratorPhasesSpec_w :
    runFetch ("   ") (.ok exProfile) exSrc = (.error .validation, false, []) ∧
    (runFetch ("alice") (.ok exProfile) noLangSrc).1 = .error .noLanguageData :=
  ⟨orchestratorPhasesSpec.1 ("   ") (.ok exProfile) exSrc (by decide),
   orchestratorPhasesSpec.2.2.1 ("alice") exProfile noLangSrc
     [⟨"a", none, some 3, none, none, "u"⟩, ⟨"b", some (""), none, none, none, "u"⟩]
     [1] (by decide) (by decide) (by decide) (by decide)⟩

/-- C10: a record whose `language` is the empty string is treated exactly
like one whose `language` is null: it contributes no histogram entry and does
not count as language-bearing; consequently a fetch whose (non-empty) records
all carry null or empty-string languages fails with `NoLanguageData`. -/
theorem emptyLanguageSpec :
    (∀ (r : Repo) (rs₁ rs₂ : List Repo),
      r.language = none ∨ r.language = some ("") →
        processedData (rs₁ ++ r :: rs₂) = processedData (rs₁ ++ rs₂) ∧
        hasLang (rs₁ ++ r :: rs₂) = hasLang (rs₁ ++ rs₂)) ∧
    (∀ u pr pgs repos tr, jsTrim u ≠ "" →
      fetchAllPages pgs 100 10 = (.ok repos, tr) → repos ≠ [] →
      (∀ r ∈ repos, r.language = none ∨ r.language = some ("")) →
      (runFetch u (.ok pr) pgs).1 = .error .noLanguageData) := by
  constructor
  · intro r rs₁ rs₂ hr
    constructor
    · apply processedData_eq_of_langs
      rw [langs_append, langs_append, langs_cons_skip r rs₂ hr]
    · unfold hasLang
      simp only [List.any_append, List.any_cons,
        truthyLang_false_of_skip r.language hr, Bool.false_or]
  · intro u pr pgs repos tr hu hpg hne hskip
    have h0 : ¬repos.length = 0 := by
      simpa using fun h => hne (List.length_eq_zero.mp h)
    have hhl : hasLang repos = false := (hasLang_eq_false_iff repos).mpr hskip
    simp [runFetch, hu, hpg, h0, hhl]

/-- Witness for C10: dropping an empty-string record from the example list,
and the end-to-end `NoLanguageData` outcome. -/
theorem emptyLanguageSpec_w :
    (processedData (cexRepos ++ [⟨"b", some (""), none, none, none, "u"⟩] ++ [])
      = processedData (cexRepos ++ []) ∧
     hasLang (cexRepos ++ [⟨"b", some (""), none, none, none, "u"⟩] ++ [])
      = hasLang (cexRepos ++ [])) ∧
    (runFetch ("alice") (.ok exProfile) noLangSrc).1 = .error .noLanguageData :=
  ⟨emptyLanguageSpec.1 ⟨"b", some (""), none, none, none, "u"⟩ cexRepos []
     (Or.inr rfl),
   emptyLanguageSpec.2 ("alice") exProfile noLangSrc
     [⟨"a", none, some 3, none, none, "u"⟩, ⟨"b", some (""), none, none, none, "u"⟩]
     [1] (by decide) (by decide) (by decide) (by decide)⟩

/-- C3: `totalStars` and `totalForks` are the sums of the (defaulted-to-0)
star and fork counts over all records; for a non-empty record list,
`avgStars` is within 1/2 of the exact quotient `totalStars / repoCount`,
i.e. it is the quotient rounded to the nearest integer; and the orchestrator
reaches the stats computation only with at least one record (every successful
run reports `repoCount ≥ 1`). -/
theorem repoStatsSpec :
    (∀ rs, totalStars rs = (rs.map starsD).sum) ∧
    (∀ rs, totalForks rs = (rs.map forksD).sum) ∧
    (∀ rs, 1 ≤ rs.length →
      |(avgStars rs : ℚ) - (totalStars rs : ℚ) / (rs.length : ℚ)| ≤ 1 / 2) ∧
    (∀ u psrc pgs out, (runFetch u psrc pgs).1 = .ok out → 1 ≤ out.repoCount) := by
  refine ⟨?_, ?_, ?_, ?_⟩
  · intro rs
    simpa [totalStars] using foldl_add_eq_sum starsD rs 0
  · intro rs
    simpa [totalForks] using foldl_add_eq_sum forksD rs 0
  · intro rs _
    simpa [avgStars] using
      mathRound_close ((totalStars rs : ℚ) / (rs.length : ℚ))
  · intro u psrc pgs out h
    by_cases hu : jsTrim u = ""
    · simp [runFetch, hu] at h
    · match psrc with
      | .fail s t => simp [runFetch, hu] at h
      | .ok pr =>
        rcases hp : (fetchAllPages pgs 100 10).1 with e | repos
        · simp [runFetch, hu, hp] at h
        · by_cases h0 : repos.length = 0
          · simp [runFetch, hu, hp, h0] at h
          · by_cases hl : hasLang repos
            · simp [runFetch, hu, hp, h0, hl] at h
              rw [← h]
              show 1 ≤ repos.length
              omega
            · simp [runFetch, hu, hp, h0, hl] at h

/-- Witness for C3 at the example of the spec: 36 stars over 4 records and an
average within a half of 9. -/
theorem repoStatsSpec_w :
    totalStars exRepos = ([10, 5, 1, 20] : List Nat).sum ∧
    |(avgStars exRepos : ℚ) - (totalStars exRepos : ℚ) / (exRepos.length : ℚ)|
      ≤ 1 / 2 :=
  ⟨repoStatsSpec.1 exRepos, repoStatsSpec.2.2.1 exRepos (by decide)⟩

/-- C2: the top-repository list has length `min 5 n`, is sorted descending
by star count (a missing count reading as 0), and among entries with equal
star counts preserves the original relative record order (its tied entries
form a sublist of the tied records in input order). -/
theorem topFiveSpec :
    (∀ rs, (top5Repos rs).length = min 5 rs.length) ∧
    (∀ rs, (top5Repos rs).Pairwise fun a b => b.stars.getD 0 ≤ a.stars.getD 0) ∧
    (∀ rs v,
      List.Sublist ((top5Repos rs).filter fun e => e.stars.getD 0 == v)
        ((rs.map toTopEntry).filter fun e => e.stars.getD 0 == v)) := by
  refine ⟨?_, ?_, ?_⟩
  · intro rs
    simp [top5Repos, List.length_take, (sortKeyDesc_perm starsD rs).length_eq]
  · intro rs
    apply List.pairwise_map.mpr
    exact (sortKeyDesc_pairwise starsD rs).take
  · intro rs v
    have hbr : ∀ l : List Repo,
        l.filter ((fun e : TopRepoEntry => e.stars.getD 0 == v) ∘ toTopEntry)
          = l.filter fun r => starsD r == v :=
      fun l => List.filter_congr fun r _ => rfl
    show List.Sublist
      ((((sortKeyDesc starsD rs).take 5).map toTopEntry).filter
        fun e => e.stars.getD 0 == v)
      ((rs.map toTopEntry).filter fun e => e.stars.getD 0 == v)
    rw [List.filter_map, List.filter_map, hbr, hbr]
    apply List.Sublist.map
    have step1 : List.Sublist
        (((sortKeyDesc starsD rs).take 5).filter fun r => starsD r == v)
        ((sortKeyDesc starsD rs).filter fun r => starsD r == v) :=
      (List.take_sublist 5 _).filter _
    rw [sortKeyDesc_filter_eq starsD rs v] at step1
    exact step1

/-- Witness for C2 at the example records of the spec. -/
theorem topFiveSpec_w : (top5Repos exRepos).length = min 5 exRepos.length :=
  topFiveSpec.1 exRepos

theorem fetchDataBody_data_none (st1 : AppState) (psrc : Resp UserProfile)
    (pgs : Nat → Resp (List Repo)) (hq : st1.error = none) :
    (fetchDataBody st1 psrc pgs).error.isSome = true →
    (fetchDataBody st1 psrc pgs).data = st1.data := by
  match psrc with
  | .fail s t => intro _; simp [fetchDataBody]
  | .ok pr =>
    rcases hp : (fetchAllPages pgs 100 10).1 with e | repos
    · intro _; simp [fetchDataBody, hp]
    · by_cases h0 : repos.length = 0
      · intro _; simp [fetchDataBody, hp, h0]
      · by_cases hl : hasLang repos
        · intro hsome
          exfalso
          simp [fetchDataBody, hp, h0, hl, hq] at hsome
        · intro _; simp [fetchDataBody, hp, h0, hl]

/-- Counterexample to C9 as stated: in the 403-on-page-2 run, the invocation
fails (an error is stored) yet the profile fetched during that same
invocation remains in the observable state. -/
theorem stateCleanup_cex :
    ((fetchDataState st0 ("alice") (.ok exProfile) limitedSrc).error).isSome
      = true ∧
    (fetchDataState st0 ("alice") (.ok exProfile) limitedSrc).userProfile
      = some exProfile := by
  decide

/-- C9 (amended): a validation failure changes only `error` (prior displayed
data is not cleared on that path); an invocation that passes validation
clears the prior `data`, `userProfile` and `error` at the start (the outcome
never depends on them), and when such an invocation fails, `data` remains
null, so no aggregated result of the failing invocation is exposed — but the
own `userProfile`/`repoCount` writes of the failing invocation, and the prior
`topRepos`/`repoStats`/`repoCount`, are not reverted. -/
theorem stateCleanupSpec :
    (∀ st u psrc pgs, jsTrim u = "" →
      fetchDataState st u psrc pgs
        = { st with error := some (errMessage .validation) }) ∧
    (∀ st u psrc pgs, jsTrim u ≠ "" →
      fetchDataState st u psrc pgs
        = fetchDataState { st with data := none, userProfile := none, error := none }
            u psrc pgs) ∧
    (∀ st u psrc pgs, jsTrim u ≠ "" →
      (fetchDataState st u psrc pgs).error.isSome = true →
      (fetchDataState st u psrc pgs).data = none) := by
  refine ⟨?_, ?_, ?_⟩
  · intro st u psrc pgs hu
    simp [fetchDataState, hu]
  · intro st u psrc pgs hu
    unfold fetchDataState
    rw [if_neg hu, if_neg hu]
  · intro st u psrc pgs hu herr
    have h2 : fetchDataState st u psrc pgs
        = fetchDataBody
            { st with
              loading := true, error := none, data := none,
              userProfile := none } psrc pgs := by
      unfold fetchDataState
      rw [if_neg hu]
    rw [h2] at herr ⊢
    exact fetchDataBody_data_none _ psrc pgs rfl herr

/-- Witness for C9 (amended): the failing 403 run stores an error and leaves
`data` null. -/
theorem stateCleanupSpec_w :
    (fetchDataState st0 ("alice") (.ok exProfile) limitedSrc).data = none :=
  stateCleanupSpec.2.2 st0 ("alice") (.ok exProfile) limitedSrc (by decide)
    (by decide)

/-- Counterexample to C1 as stated: with a record whose `language` is the
non-null string `""`, the histogram values sum to 1 while two records have a
non-null `language` — the truthiness test `if (repo.language)` also skips
empty strings, not only null. -/
theorem languageHistogram_cex :
    ¬(((processedData cexRepos).map fun e => e.value).sum
        = (cexRepos.filter fun r => r.language.isSome).length) := by
  decide

/-- C1 (amended): the histogram has exactly one entry per distinct truthy
(non-null **and non-empty**) language; the value of each entry counts the records
whose `language` equals its name; the values sum to the number of records
with a truthy language; the sequence is sorted descending by value; and ties
keep the order of the pre-sort entry list, whose names are the truthy
languages in first-seen order. -/
theorem languageHistogram :
    (∀ rs, ((processedData rs).map fun e => e.name).Nodup) ∧
    (∀ rs s, s ∈ (processedData rs).map (fun e => e.name)
      ↔ s ≠ "" ∧ ∃ r ∈ rs, r.language = some s) ∧
    (∀ rs e, e ∈ processedData rs →
      e.value = (rs.filter fun r => r.language == some e.name).length) ∧
    (∀ rs, ((processedData rs).map fun e => e.value).sum
      = (rs.filter fun r => truthyLang r.language).length) ∧
    (∀ rs, (processedData rs).Pairwise fun a b => b.value ≤ a.value) ∧
    (∀ rs v, (processedData rs).filter (fun e => e.value == v)
      = (langEntries rs).filter fun e => e.value == v) ∧
    (∀ rs, (langEntries rs).map (fun e => e.name) = firstSeen (langs rs)) := by
  have hkeys : ∀ rs : List Repo,
      (langEntries rs).map (fun e => e.name) = firstSeen (langs rs) := by
    intro rs
    unfold langEntries
    rw [List.map_map, ← langMapOf_keys rs]
    rfl
  have hpn : ∀ rs : List Repo,
      ((processedData rs).map fun e => e.name).Perm
        ((langEntries rs).map fun e => e.name) :=
    fun rs => (sortKeyDesc_perm _ _).map _
  refine ⟨?_, ?_, ?_, ?_, ?_, ?_, hkeys⟩
  · intro rs
    rw [(hpn rs).nodup_iff, hkeys rs]
    exact firstSeen_nodup _
  · intro rs s
    rw [(hpn rs).mem_iff, hkeys rs, mem_firstSeen]
    exact mem_langs rs s
  · intro rs e he
    have he2 : e ∈ langEntries rs := ((sortKeyDesc_perm _ _).mem_iff).mp he
    obtain ⟨p, hp, hpe⟩ := List.mem_map.mp he2
    have hname : e.name = p.1 := by rw [← hpe]
    have hval : e.value = p.2 := by rw [← hpe]
    have hk : lkD (langMapOf rs) p.1 = p.2 := by
      apply lkD_of_mem_nodup _ _ _ (langMapOf_keys_nodup rs)
      simpa using hp
    have hmemk : p.1 ∈ langs rs := by
      rw [← mem_firstSeen, ← langMapOf_keys]
      exact List.mem_map.mpr ⟨p, hp, rfl⟩
    have hne : p.1 ≠ "" := ((mem_langs rs p.1).mp hmemk).1
    rw [hval, hname, ← count_langs rs p.1 hne, ← langMapOf_lkD, hk]
  · intro rs
    have hpv : ((processedData rs).map fun e => e.value).Perm
        ((langEntries rs).map fun e => e.value) :=
      (sortKeyDesc_perm _ _).map _
    rw [hpv.sum_eq]
    unfold langEntries
    rw [List.map_map,
      show ((langMapOf rs).map ((fun e : LangCount => e.value) ∘ fun p => ⟨p.1, p.2⟩))
        = (langMapOf rs).map Prod.snd from rfl,
      langMapOf_sum, length_langs]
  · intro rs
    exact sortKeyDesc_pairwise _ _
  · intro rs v
    exact sortKeyDesc_filter_eq _ _ _

/-- Witness for C1 (amended): the `Go` entry of the example histogram counts
exactly the two `Go` records. -/
theorem languageHistogram_w :
    (⟨"Go", 2⟩ : LangCount).value
      = (exRepos.filter fun r =>
          r.language == some (⟨"Go", 2⟩ : LangCount).name).length :=
  languageHistogram.2.2.1 exRepos ⟨"Go", 2⟩ (by decide)
